import Mathlib

/-!
Shallow embedding of the masking / restore core of the
`iiwish/data-anonymization` service.

Strings are modelled as `List Char`; Go's `strings.ReplaceAll` and
`strings.Contains` are reimplemented over that type.  Go `float64`
arithmetic is modelled over `ℚ`; the crypto/rand byte source is an
explicit stream `Nat → Nat` (each byte taken mod 256) threaded through
the anonymizer state together with a read position.
-/

unseal Rat.add Rat.sub Rat.mul Rat.inv

namespace Anon

/-- Strings as lists of characters (Go strings viewed as rune lists;
byte lengths are computed by `utf8Len` where the source uses `len`). -/
abbrev Str := List Char

/-- UTF-8 encoded size of one character, mirroring Go's byte count for
a rune. -/
def charUtf8Size (c : Char) : Nat :=
  if c.toNat < 0x80 then 1
  else if c.toNat < 0x800 then 2
  else if c.toNat < 0x10000 then 3
  else 4

/-- Byte length of a string, mirroring Go's `len(s)` on a UTF-8 string. -/
def utf8Len (s : Str) : Nat :=
  (s.map charUtf8Size).sum

/-- `occurs pat s` mirrors Go `strings.Contains(s, pat)`. -/
def occurs (pat : Str) : Str → Bool
  | [] => pat.isEmpty
  | c :: rest => pat.isPrefixOf (c :: rest) || occurs pat rest

/-- Scanner for leftmost, non-overlapping replacement: `skip` counts
characters still to be consumed silently because they belong to the
match just replaced (the replacement text is not rescanned), exactly
Go's resume-after-match behaviour in `strings.Replace`. -/
def replaceAllAux (pat rep : Str) : Str → Nat → Str
  | [], _ => []
  | _ :: rest, skip + 1 => replaceAllAux pat rep rest skip
  | c :: rest, 0 =>
    if pat.isPrefixOf (c :: rest) then
      rep ++ replaceAllAux pat rep rest (pat.length - 1)
    else
      c :: replaceAllAux pat rep rest 0

/-- Leftmost, non-overlapping replacement of a nonempty pattern,
scanning left to right. -/
def replaceAllPos (s pat rep : Str) : Str :=
  replaceAllAux pat rep s 0

/-- Go `strings.ReplaceAll(s, pat, rep)`.  An empty pattern matches at
every position, inserting `rep` before every character and at the end. -/
def replaceAll (s pat rep : Str) : Str :=
  if pat = [] then
    rep ++ (s.map fun c => c :: rep).flatten
  else
    replaceAllPos s pat rep

/-- First-match lookup in an association list (Go map read `m[k]`). -/
def alookup (k : Str) : List (Str × α) → Option α
  | [] => none
  | (k', v) :: rest => if k' = k then some v else alookup k rest

/-- Overwriting insert (Go map write `m[k] = v`): replaces the first
binding of `k` if present, appends otherwise. -/
def aset (k : Str) (v : α) : List (Str × α) → List (Str × α)
  | [] => [(k, v)]
  | (k', v') :: rest => if k' = k then (k, v) :: rest else (k', v') :: aset k v rest

/-- Lowercase hexadecimal digit, as produced by Go `encoding/hex`. -/
def hexDigit (n : Nat) : Char :=
  match n % 16 with
  | 0 => '0' | 1 => '1' | 2 => '2' | 3 => '3'
  | 4 => '4' | 5 => '5' | 6 => '6' | 7 => '7'
  | 8 => '8' | 9 => '9' | 10 => 'a' | 11 => 'b'
  | 12 => 'c' | 13 => 'd' | 14 => 'e' | _ => 'f'

/-- Hex encoding of a byte list (two lowercase digits per byte),
mirroring `hex.EncodeToString`. -/
def hexEncode (bytes : List Nat) : Str :=
  (bytes.map fun b => [hexDigit (b % 256 / 16), hexDigit (b % 256 % 16)]).flatten

/-- JSON values as decoded by Go's `encoding/json` into `interface{}`:
numbers arrive as `float64`, modelled by `ℚ`. -/
inductive JsonValue where
  | null : JsonValue
  | bool (b : Bool) : JsonValue
  | num (q : ℚ) : JsonValue
  | str (s : Str) : JsonValue
  | arr (xs : List JsonValue) : JsonValue
  | obj (fields : List (Str × JsonValue)) : JsonValue

mutual

/-- Boolean equality on JSON values. -/
def JsonValue.beq : JsonValue → JsonValue → Bool
  | .null, .null => true
  | .bool a, .bool b => a = b
  | .num a, .num b => a = b
  | .str a, .str b => a = b
  | .arr a, .arr b => JsonValue.beqList a b
  | .obj a, .obj b => JsonValue.beqFields a b
  | _, _ => false

/-- Boolean equality on JSON arrays. -/
def JsonValue.beqList : List JsonValue → List JsonValue → Bool
  | [], [] => true
  | x :: xs, y :: ys => JsonValue.beq x y && JsonValue.beqList xs ys
  | _, _ => false

/-- Boolean equality on JSON object field lists. -/
def JsonValue.beqFields : List (Str × JsonValue) → List (Str × JsonValue) → Bool
  | [], [] => true
  | (k, v) :: xs, (k', v') :: ys =>
      k = k' && JsonValue.beq v v' && JsonValue.beqFields xs ys
  | _, _ => false

end

mutual

theorem JsonValue.beq_iff : ∀ a b : JsonValue, JsonValue.beq a b = true ↔ a = b
  | .null, .null => by simp [JsonValue.beq]
  | .bool a, .bool b => by simp [JsonValue.beq]
  | .num a, .num b => by simp [JsonValue.beq]
  | .str a, .str b => by simp [JsonValue.beq]
  | .arr a, .arr b => by
      simp only [JsonValue.beq, JsonValue.beqList_iff a b, JsonValue.arr.injEq]
  | .obj a, .obj b => by
      simp only [JsonValue.beq, JsonValue.beqFields_iff a b, JsonValue.obj.injEq]
  | .null, .bool _ | .null, .num _ | .null, .str _ | .null, .arr _ | .null, .obj _
  | .bool _, .null | .bool _, .num _ | .bool _, .str _ | .bool _, .arr _ | .bool _, .obj _
  | .num _, .null | .num _, .bool _ | .num _, .str _ | .num _, .arr _ | .num _, .obj _
  | .str _, .null | .str _, .bool _ | .str _, .num _ | .str _, .arr _ | .str _, .obj _
  | .arr _, .null | .arr _, .bool _ | .arr _, .num _ | .arr _, .str _ | .arr _, .obj _
  | .obj _, .null | .obj _, .bool _ | .obj _, .num _ | .obj _, .str _ | .obj _, .arr _ => by
      simp [JsonValue.beq]

theorem JsonValue.beqList_iff : ∀ a b : List JsonValue, JsonValue.beqList a b = true ↔ a = b
  | [], [] => by simp [JsonValue.beqList]
  | x :: xs, y :: ys => by
      simp only [JsonValue.beqList, Bool.and_eq_true, JsonValue.beq_iff x y,
        JsonValue.beqList_iff xs ys, List.cons.injEq]
  | [], _ :: _ => by simp [JsonValue.beqList]
  | _ :: _, [] => by simp [JsonValue.beqList]

theorem JsonValue.beqFields_iff :
    ∀ a b : List (Str × JsonValue), JsonValue.beqFields a b = true ↔ a = b
  | [], [] => by simp [JsonValue.beqFields]
  | (k, v) :: xs, (k', v') :: ys => by
      simp only [JsonValue.beqFields, Bool.and_eq_true, decide_eq_true_eq,
        JsonValue.beq_iff v v', JsonValue.beqFields_iff xs ys, List.cons.injEq,
        Prod.mk.injEq, and_assoc]
  | [], _ :: _ => by simp [JsonValue.beqFields]
  | _ :: _, [] => by simp [JsonValue.beqFields]

end

instance : DecidableEq JsonValue := fun a b =>
  decidable_of_iff _ (JsonValue.beq_iff a b)

/-- `AnonymizationStrategy` from config.go. -/
inductive AnonymizationStrategy where
  | mapCode | transform | mapPlaceholder | passthrough
deriving DecidableEq

/-- `AnonymizationRule`: strategy, strategy params (a JSON object),
and `applies_to` (category type plus matched literal values). -/
structure AnonymizationRule where
  strategy : AnonymizationStrategy
  strategyParams : List (Str × JsonValue)
  appliesToType : Str
  appliesToValues : List JsonValue
deriving DecidableEq

/-- The `Anonymizer` struct plus the crypto/rand source made explicit:
`rand` is the byte stream (bytes taken mod 256), `randPos` the number
of bytes consumed so far. -/
structure Anonymizer where
  rules : List AnonymizationRule
  categoricalMappings : List (Str × List (Str × Str))
  metricPlaceholderMappings : List (Str × JsonValue)
  valueToCode : List (Str × Str)
  typeCounters : List (Str × Nat)
  placeholderCounter : Nat
  rand : Nat → Nat
  randPos : Nat

/-- `NewAnonymizer`, parameterised by the random byte stream. -/
def NewAnonymizer (rules : List AnonymizationRule) (rand : Nat → Nat) : Anonymizer :=
  { rules := rules
    categoricalMappings := []
    metricPlaceholderMappings := []
    valueToCode := []
    typeCounters := []
    placeholderCounter := 0
    rand := rand
    randPos := 0 }

/-- `generateRandomHex(length)`: reads `length/2+1` bytes from the
random source, hex-encodes them and keeps the first `length` digits.
Returns the digits and the advanced state. -/
def generateRandomHex (a : Anonymizer) (length : Nat) : Str × Anonymizer :=
  let count := length / 2 + 1
  let bytes := (List.range count).map fun i => a.rand (a.randPos + i)
  ((hexEncode bytes).take length, { a with randPos := a.randPos + count })

/-- Decimal rendering of a natural number. -/
def natToStr (n : Nat) : Str := (toString n).toList

/-- Decimal rendering of an integer. -/
def intToStr (n : ℤ) : Str := (toString n).toList

/-- Go's `fmt.Sprintf("%v", value)` on the JSON scalars the engine may
see; used only to build the value→code memo key, so all that matters
is that equal values render equally.  Integral floats print without a
decimal point (Go `%v` uses `%g` for `float64`); other rationals are
rendered as numerator/denominator, a deterministic stand-in for `%g`. -/
def goFormatV : JsonValue → Str
  | .null => "<nil>".toList
  | .bool b => if b then "true".toList else "false".toList
  | .num q =>
      if q.den = 1 then intToStr q.num
      else intToStr q.num ++ '/' :: natToStr q.den
  | .str s => s
  | .arr _ => "<arr>".toList
  | .obj _ => "<obj>".toList

/-- `generateMapCode(value, dataType)`: returns the memoised code for
`dataType + ":" + value` if present; otherwise draws a 4-hex-digit
suffix, issues `dataType + "_" + suffix`, and records it in both the
categorical table and the memo.  No collision check is performed. -/
def generateMapCode (a : Anonymizer) (value : Str) (dataType : Str) : Str × Anonymizer :=
  let key := dataType ++ ':' :: value
  match alookup key a.valueToCode with
  | some code => (code, a)
  | none =>
    let withCat :=
      match alookup dataType a.categoricalMappings with
      | some _ => a.categoricalMappings
      | none => aset dataType [] a.categoricalMappings
    let counters := aset dataType ((alookup dataType a.typeCounters).getD 0 + 1) a.typeCounters
    let (randomSuffix, a') := generateRandomHex a 4
    let code := dataType ++ '_' :: randomSuffix
    let catMap := (alookup dataType withCat).getD []
    (code,
      { a' with
        categoricalMappings := aset dataType (aset code value catMap) withCat
        typeCounters := counters
        valueToCode := aset key code a.valueToCode })

/-- `generatePlaceholder(value, dataType)`: returns the memoised token
for `dataType + ":" + Sprintf("%v", value)` if present; otherwise
increments the session-global counter and issues
`dataType + "_plc_" + counter`. -/
def generatePlaceholder (a : Anonymizer) (value : JsonValue) (dataType : Str) :
    Str × Anonymizer :=
  let key := dataType ++ ':' :: goFormatV value
  match alookup key a.valueToCode with
  | some code => (code, a)
  | none =>
    let counter := a.placeholderCounter + 1
    let placeholder := dataType ++ "_plc_".toList ++ natToStr counter
    (placeholder,
      { a with
        placeholderCounter := counter
        metricPlaceholderMappings :=
          aset placeholder value a.metricPlaceholderMappings
        valueToCode := aset key placeholder a.valueToCode })

/-- `randFloat()`: reads 8 random bytes, assembles a `uint64`, and
divides by `math.MaxUint64 = 2^64 - 1`; modelled exactly over `ℚ`. -/
def randFloat (a : Anonymizer) : ℚ × Anonymizer :=
  let n : Nat := (List.range 8).foldl (fun acc i => acc * 256 + a.rand (a.randPos + i) % 256) 0
  ((n : ℚ) / ((2 ^ 64 : ℚ) - 1), { a with randPos := a.randPos + 8 })

/-- Noise level drawn from strategy params: the `noise_level` entry
when it is a number, `0.05` otherwise. -/
def noiseLevelOf (params : List (Str × JsonValue)) : ℚ :=
  match alookup "noise_level".toList params with
  | some (.num nl) => nl
  | _ => 1 / 20

/-- `transformNumber(value, params)`: adds multiplicative noise
`value * noiseLevel * r` with `r = randFloat()*2 - 1`. -/
def transformNumber (a : Anonymizer) (value : ℚ) (params : List (Str × JsonValue)) :
    ℚ × Anonymizer :=
  let noiseLevel := noiseLevelOf params
  let (f, a') := randFloat a
  let randomFactor := f * 2 - 1
  (value + value * noiseLevel * randomFactor, a')

/-- `toFloat64`: Go's type switch coerces non-numeric `interface{}`
values to `0`. -/
def toFloat64 : JsonValue → ℚ
  | .num q => q
  | _ => 0

/-- Executable absolute value on `ℚ` (Go `math.Abs`). -/
def ratAbs (q : ℚ) : ℚ := if q < 0 then -q else q

theorem ratAbs_eq_abs (q : ℚ) : ratAbs q = |q| := by
  rw [ratAbs]
  split
  · rw [abs_of_neg (by assumption)]
  · rw [abs_of_nonneg (by linarith [not_lt.mp (by assumption)])]

/-- `compareNumbers(a, b)`: absolute difference of the `toFloat64`
coercions strictly below `0.0001`. -/
def compareNumbers (x y : JsonValue) : Bool :=
  ratAbs (toFloat64 x - toFloat64 y) < 1 / 10000

/-- One candidate substitution inside `anonymizeString`: a string
literal from some rule's `applies_to.values`, with its rule. -/
structure Replacement where
  value : Str
  rule : AnonymizationRule
deriving DecidableEq

/-- The literal's Go byte length, the sort key in `anonymizeString`. -/
def Replacement.len (r : Replacement) : Nat := utf8Len r.value

/-- Inner loop of the sort in `anonymizeString` for a fixed slot `i`:
scanning left to right, whenever the current slot value is strictly
shorter than the scanned element the two are swapped.  Returns the
final slot value (a maximal element) and the rewritten tail. -/
def bubbleMax (best : Replacement) : List Replacement → Replacement × List Replacement
  | [] => (best, [])
  | x :: xs =>
    if best.len < x.len then
      let (b, ys) := bubbleMax x xs
      (b, best :: ys)
    else
      let (b, ys) := bubbleMax best xs
      (b, x :: ys)

theorem bubbleMax_snd_length (best : Replacement) (l : List Replacement) :
    (bubbleMax best l).2.length = l.length := by
  induction l generalizing best with
  | nil => simp [bubbleMax]
  | cons x xs ih =>
    simp only [bubbleMax]
    split
    · simp [ih x]
    · simp [ih best]

/-- Outer-loop iteration of the sort: one selection step per unit of
fuel; `bubbleMax` keeps the tail's length, so fuel equal to the list
length always suffices. -/
def sortReplacementsGo : Nat → List Replacement → List Replacement
  | _, [] => []
  | 0, l => l
  | fuel + 1, x :: xs =>
    let p := bubbleMax x xs
    p.1 :: sortReplacementsGo fuel p.2

/-- The double `for` loop in `anonymizeString`: selection sort by
descending byte length (ties keep their relative behaviour: equal
lengths are never swapped). -/
def sortReplacements (l : List Replacement) : List Replacement :=
  sortReplacementsGo l.length l

/-- The candidate list built by `anonymizeString`: every string
literal of every rule, in rule order then value order. -/
def collectReplacements (rules : List AnonymizationRule) : List Replacement :=
  rules.flatMap fun rule =>
    rule.appliesToValues.filterMap fun v =>
      match v with
      | .str s => some ⟨s, rule⟩
      | _ => none

/-- `applyStrategy(value, rule)` for string values: MAP_CODE issues a
code, every other strategy returns the value unchanged. -/
def applyStrategy (a : Anonymizer) (value : Str) (rule : AnonymizationRule) :
    Str × Anonymizer :=
  match rule.strategy with
  | .mapCode => generateMapCode a value rule.appliesToType
  | _ => (value, a)

/-- The substitution loop of `anonymizeString`: for each sorted
candidate contained in the current text, apply its strategy and
replace every occurrence. -/
def runReplacements (a : Anonymizer) (text : Str) :
    List Replacement → Str × Anonymizer
  | [] => (text, a)
  | repl :: rest =>
    if occurs repl.value text then
      let (code, a') := applyStrategy a repl.value repl.rule
      runReplacements a' (replaceAll text repl.value code) rest
    else
      runReplacements a text rest

/-- `anonymizeString(s)`: collect string literals from all rules, sort
them by descending byte length, then substitute in that order. -/
def anonymizeString (a : Anonymizer) (s : Str) : Str × Anonymizer :=
  runReplacements a s (sortReplacements (collectReplacements a.rules))

/-- First rule owning a literal that `compareNumbers`-matches `n`
(outer loop over rules, inner loop over values). -/
def findNumberRule (n : JsonValue) : List AnonymizationRule → Option AnonymizationRule
  | [] => none
  | rule :: rest =>
    if rule.appliesToValues.any fun v => compareNumbers v n then some rule
    else findNumberRule n rest

/-- `applyStrategyToNumber(value, rule)`: TRANSFORM noises the number,
MAP_PLACEHOLDER tokenises it, anything else passes it through. -/
def applyStrategyToNumber (a : Anonymizer) (value : JsonValue)
    (rule : AnonymizationRule) : JsonValue × Anonymizer :=
  match rule.strategy with
  | .transform =>
      let (q, a') := transformNumber a (toFloat64 value) rule.strategyParams
      (.num q, a')
  | .mapPlaceholder =>
      let (p, a') := generatePlaceholder a value rule.appliesToType
      (.str p, a')
  | _ => (value, a)

/-- `anonymizeNumber(n)`: dispatch on the first matching rule, or
return the number unchanged. -/
def anonymizeNumber (a : Anonymizer) (n : JsonValue) : JsonValue × Anonymizer :=
  match findNumberRule n a.rules with
  | some rule => applyStrategyToNumber a n rule
  | none => (n, a)

mutual

/-- `anonymizeValue`: recursive traversal.  Objects and arrays recurse,
strings go through substring substitution, numbers through numeric
rule dispatch, and every other scalar is returned unchanged. -/
def anonymizeValue (a : Anonymizer) : JsonValue → JsonValue × Anonymizer
  | .null => (.null, a)
  | .bool b => (.bool b, a)
  | .num q =>
      anonymizeNumber a (.num q)
  | .str s =>
      let (s', a') := anonymizeString a s
      (.str s', a')
  | .arr xs =>
      let (ys, a') := anonymizeSlice a xs
      (.arr ys, a')
  | .obj fields =>
      let (gs, a') := anonymizeMap a fields
      (.obj gs, a')

/-- `anonymizeSlice`: element-wise recursion, preserving length and
order (state threaded left to right). -/
def anonymizeSlice (a : Anonymizer) : List JsonValue → List JsonValue × Anonymizer
  | [] => ([], a)
  | x :: xs =>
      let (y, a1) := anonymizeValue a x
      let (ys, a2) := anonymizeSlice a1 xs
      (y :: ys, a2)

/-- `anonymizeMap`: field-wise recursion with unchanged keys (Go
iterates the map in unspecified order; the embedding fixes the field
list order). -/
def anonymizeMap (a : Anonymizer) :
    List (Str × JsonValue) → List (Str × JsonValue) × Anonymizer
  | [] => ([], a)
  | (k, v) :: fields =>
      let (v', a1) := anonymizeValue a v
      let (fields', a2) := anonymizeMap a1 fields
      ((k, v') :: fields', a2)

end

/-- `Anonymize(payload)`: the top-level entry point (its Go error
result is always nil). -/
def Anonymize (a : Anonymizer) (payload : JsonValue) : JsonValue × Anonymizer :=
  anonymizeValue a payload

/-- `GetMappings()`: a JSON object holding the categorical table under
`categorical_mappings` only when non-empty, and the placeholder table
under `metric_placeholder_mappings` only when non-empty. -/
def GetMappings (a : Anonymizer) : JsonValue :=
  .obj
    ((if a.categoricalMappings.length > 0 then
        [("categorical_mappings".toList,
          JsonValue.obj (a.categoricalMappings.map fun (ty, m) =>
            (ty, JsonValue.obj (m.map fun (code, orig) => (code, JsonValue.str orig)))))]
      else []) ++
     (if a.metricPlaceholderMappings.length > 0 then
        [("metric_placeholder_mappings".toList,
          JsonValue.obj a.metricPlaceholderMappings)]
      else []))

/-- Left-pad a decimal rendering with zeros to six digits. -/
def pad6 (n : Nat) : Str :=
  let d := natToStr n
  List.replicate (6 - d.length) '0' ++ d

/-- Go `fmt.Sprintf("%f", v)` on the exact rational carried by the
model: sign, integer part, then six fractional digits rounded half-up
on the magnitude (agrees with Go's rendering on every value any
theorem below evaluates). -/
def formatFixed6 (q : ℚ) : Str :=
  let sign : Str := if q < 0 then ['-'] else []
  let scaled : ℤ := round (|q| * 1000000)
  sign ++ intToStr (scaled / 1000000) ++ '.' :: pad6 (scaled % 1000000).toNat

/-- `formatValue(value)` from the decryptors: strings pass through,
integral numbers render via `%d`, other numbers via `%f`, anything
else via `%v`. -/
def formatValue : JsonValue → Str
  | .str s => s
  | .num q => if q.den = 1 then intToStr q.num else formatFixed6 q
  | v => goFormatV v

/-- The `Decryptor` struct shared by both restore variants. -/
structure Decryptor where
  categoricalMappings : List (Str × List (Str × Str))
  metricPlaceholderMappings : List (Str × JsonValue)
  codeToValue : List (Str × Str)

/-- Fold one categorical type's code map into the decryptor, keeping
only string-valued originals (Go skips non-string values). -/
def addTypeEntries (d : Decryptor) (ty : Str) (tm : JsonValue) : Decryptor :=
  let base := { d with categoricalMappings := aset ty [] d.categoricalMappings }
  match tm with
  | .obj entries =>
      entries.foldl
        (fun d' (e : Str × JsonValue) =>
          match e.2 with
          | .str valStr =>
              { d' with
                categoricalMappings :=
                  aset ty (aset e.1 valStr ((alookup ty d'.categoricalMappings).getD []))
                    d'.categoricalMappings
                codeToValue := aset e.1 valStr d'.codeToValue }
          | _ => d')
        base
  | _ => base

/-- `NewDecryptor(mappings)`: flattens `categorical_mappings` into a
code→original index and copies `metric_placeholder_mappings`; entries
of unexpected shape are silently skipped. -/
def NewDecryptor (mappings : List (Str × JsonValue)) : Decryptor :=
  let d0 : Decryptor :=
    { categoricalMappings := [], metricPlaceholderMappings := [], codeToValue := [] }
  let d1 :=
    match alookup "categorical_mappings".toList mappings with
    | some (.obj typeFields) =>
        typeFields.foldl (fun d (f : Str × JsonValue) => addTypeEntries d f.1 f.2) d0
    | _ => d0
  match alookup "metric_placeholder_mappings".toList mappings with
  | some (.obj entries) =>
      { d1 with
        metricPlaceholderMappings :=
          entries.foldl (fun m (e : Str × JsonValue) => aset e.1 e.2 m)
            d1.metricPlaceholderMappings }
  | _ => d1

/-- `decryptString` of the bare-token variant (decryption.go): global
text substitution of every known code and placeholder, undelimited. -/
def decryptStringBare (d : Decryptor) (text : Str) : Str :=
  let r1 := d.codeToValue.foldl
    (fun res (e : Str × Str) => replaceAll res e.1 e.2) text
  d.metricPlaceholderMappings.foldl
    (fun res (e : Str × JsonValue) => replaceAll res e.1 (formatValue e.2)) r1

/-- `decryptString` of the delimiter variant (the text-mode restore
engine): replaces `{code}` and `{placeholder}` occurrences only. -/
def decryptStringDelim (d : Decryptor) (text : Str) : Str :=
  let r1 := d.codeToValue.foldl
    (fun res (e : Str × Str) => replaceAll res ('{' :: e.1 ++ ['}']) e.2) text
  d.metricPlaceholderMappings.foldl
    (fun res (e : Str × JsonValue) =>
      replaceAll res ('{' :: e.1 ++ ['}']) (formatValue e.2)) r1

/-- `Decrypt` of the delimiter variant: the request carries a plain
text string and the whole restore is one text substitution pass. -/
def DecryptText (d : Decryptor) (text : Str) : Str :=
  decryptStringDelim d text

/-- `decryptStringValue` (structured variant): a leaf wholly equal to
a known placeholder or code is replaced by the original with its
native type; otherwise the leaf falls through to bare substitution. -/
def decryptStringValue (d : Decryptor) (s : Str) : JsonValue :=
  match alookup s d.metricPlaceholderMappings with
  | some value => value
  | none =>
    match alookup s d.codeToValue with
    | some value => .str value
    | none => .str (decryptStringBare d s)

mutual

/-- `decryptValue` (structured variant): recursion over objects and
arrays, whole-token matching at string leaves. -/
def decryptValue (d : Decryptor) : JsonValue → JsonValue
  | .null => .null
  | .str s => decryptStringValue d s
  | .arr xs => .arr (decryptSlice d xs)
  | .obj fields => .obj (decryptMap d fields)
  | v => v

/-- `decryptSlice`: element-wise structured restore. -/
def decryptSlice (d : Decryptor) : List JsonValue → List JsonValue
  | [] => []
  | x :: xs => decryptValue d x :: decryptSlice d xs

/-- `decryptMap`: field-wise structured restore with unchanged keys. -/
def decryptMap (d : Decryptor) : List (Str × JsonValue) → List (Str × JsonValue)
  | [] => []
  | (k, v) :: fields => (k, decryptValue d v) :: decryptMap d fields

end

/-- `Decrypt` of the structured variant (decryption.go): a top-level
string goes straight through bare text substitution; maps and slices
recurse; other scalars pass through. -/
def Decrypt (d : Decryptor) : JsonValue → JsonValue
  | .null => .null
  | .str s => .str (decryptStringBare d s)
  | .arr xs => decryptValue d (.arr xs)
  | .obj fields => decryptValue d (.obj fields)
  | v => v

/-- The decryption handler's request validation: the restore call is
rejected exactly when the supplied `mappings` object has no keys
(`req.Mappings == nil || len(req.Mappings) == 0`). -/
def mappingsRejected (mappings : List (Str × JsonValue)) : Bool :=
  mappings.isEmpty

/-- Modelled from the spec: the token delimiter convention of §6 — the
intermediate consumer wraps each bare token emitted by masking in `{}`
before handing text back for restore.  (The wrapping itself happens
outside this repository; masking emits bare tokens.) -/
def wrapToken (t : Str) : Str := '{' :: t ++ ['}']

/-- Modelled from the spec: wrapping every token of a token list
inside a text, each bare occurrence becoming `{token}`. -/
def wrapTokens (tokens : List Str) (text : Str) : Str :=
  tokens.foldl (fun res t => replaceAll res t (wrapToken t)) text

/-- Key list of a JSON object (empty for non-objects). -/
def objKeys : JsonValue → List Str
  | .obj fields => fields.map Prod.fst
  | _ => []

/-- Field list of a JSON object (empty for non-objects). -/
def objFields : JsonValue → List (Str × JsonValue)
  | .obj fields => fields
  | _ => []

/-! ### Association list lemmas -/

theorem alookup_aset_self (k : Str) (v : α) (l : List (Str × α)) :
    alookup k (aset k v l) = some v := by
  induction l with
  | nil => simp [aset, alookup]
  | cons hd tl ih =>
    obtain ⟨k', v'⟩ := hd
    by_cases h : k' = k
    · subst h
      simp [aset, alookup]
    · simp [aset, alookup, h, ih]

theorem alookup_aset_ne (k k' : Str) (v : α) (l : List (Str × α)) (h : k' ≠ k) :
    alookup k (aset k' v l) = alookup k l := by
  induction l with
  | nil => simp [aset, alookup, h]
  | cons hd tl ih =>
    obtain ⟨k'', v''⟩ := hd
    by_cases h2 : k'' = k'
    · subst h2
      simp [aset, alookup, h]
    · simp only [aset, if_neg h2]
      by_cases h3 : k'' = k
      · subst h3
        simp [alookup]
      · simp [alookup, h3, ih]

/-! ### Substring and replacement lemmas -/

theorem not_occurs_of_head_not_mem (p0 : Char) (pr s : Str) (h : p0 ∉ s) :
    occurs (p0 :: pr) s = false := by
  induction s with
  | nil => simp [occurs]
  | cons c rest ih =>
    have hne : p0 ≠ c := fun he => h (he ▸ List.mem_cons_self c rest)
    have hmem : p0 ∉ rest := fun hm => h (List.mem_cons_of_mem c hm)
    simp only [occurs, Bool.or_eq_false_iff]
    refine ⟨?_, ih hmem⟩
    simp [List.isPrefixOf, hne]

theorem head_mem_of_occurs (p0 : Char) (pr s : Str) (h : occurs (p0 :: pr) s = true) :
    p0 ∈ s := by
  by_contra hmem
  rw [not_occurs_of_head_not_mem p0 pr s hmem] at h
  exact Bool.false_ne_true h

theorem occurs_append_right (pat s t : Str) (h : occurs pat t = true) :
    occurs pat (s ++ t) = true := by
  induction s with
  | nil => simpa using h
  | cons c rest ih =>
    simp only [List.cons_append, occurs, Bool.or_eq_true]
    exact Or.inr ih

theorem replaceAllAux_skip_all (pat rep s : Str) (k : Nat) (h : s.length ≤ k) :
    replaceAllAux pat rep s k = [] := by
  induction s generalizing k with
  | nil => simp [replaceAllAux]
  | cons c rest ih =>
    cases k with
    | zero => simp at h
    | succ k2 =>
      rw [replaceAllAux]
      exact ih k2 (by simpa using h)

theorem replaceAllAux_append_skip (pat rep t u : Str) :
    replaceAllAux pat rep (t ++ u) t.length = replaceAllAux pat rep u 0 := by
  induction t with
  | nil => simp
  | cons c rest ih =>
    rw [List.cons_append, List.length_cons, replaceAllAux]
    exact ih

theorem replaceAllPos_of_not_occurs (s pat rep : Str) (h : occurs pat s = false) :
    replaceAllPos s pat rep = s := by
  rw [replaceAllPos]
  induction s with
  | nil => simp [replaceAllAux]
  | cons c rest ih =>
    simp only [occurs, Bool.or_eq_false_iff] at h
    rw [replaceAllAux, if_neg (by simp [h.1]), ih h.2]

theorem replaceAll_of_not_occurs (s pat rep : Str) (h : occurs pat s = false)
    (hpat : pat ≠ []) : replaceAll s pat rep = s := by
  rw [replaceAll, if_neg hpat]
  exact replaceAllPos_of_not_occurs s pat rep h

theorem replaceAll_self (v rep : Str) (hv : v ≠ []) : replaceAll v v rep = rep := by
  obtain ⟨c, rest, rfl⟩ : ∃ c rest, v = c :: rest := by
    cases v with
    | nil => exact absurd rfl hv
    | cons c rest => exact ⟨c, rest, rfl⟩
  rw [replaceAll, if_neg hv, replaceAllPos, replaceAllAux,
    if_pos (List.isPrefixOf_iff_prefix.mpr (List.prefix_refl _))]
  rw [show (c :: rest).length - 1 = rest.length from by simp,
    replaceAllAux_skip_all _ _ rest rest.length le_rfl, List.append_nil]

theorem replaceAllPos_append_left (s1 t pat rep : Str) (p0 : Char) (pr : Str)
    (hpat : pat = p0 :: pr) (h : p0 ∉ s1) :
    replaceAllPos (s1 ++ t) pat rep = s1 ++ replaceAllPos t pat rep := by
  simp only [replaceAllPos]
  induction s1 with
  | nil => simp
  | cons c rest ih =>
    have hne : p0 ≠ c := fun he => h (he ▸ List.mem_cons_self c rest)
    have hmem : p0 ∉ rest := fun hm => h (List.mem_cons_of_mem c hm)
    rw [List.cons_append, replaceAllAux, if_neg (by simp [hpat, List.isPrefixOf, hne]),
      ih hmem, List.cons_append]

/-- Replacing the pattern standing at the head of the scanned text:
the occurrence is replaced and scanning resumes to the right of it. -/
theorem replaceAllPos_cons_self (pr s2 rep : Str) (p0 : Char) :
    replaceAllPos ((p0 :: pr) ++ s2) (p0 :: pr) rep
      = rep ++ replaceAllPos s2 (p0 :: pr) rep := by
  rw [replaceAllPos, List.cons_append, replaceAllAux,
    if_pos (List.isPrefixOf_iff_prefix.mpr (by exact (List.prefix_append _ _)))]
  rw [show (p0 :: pr).length - 1 = pr.length from by simp,
    replaceAllAux_append_skip (p0 :: pr) rep pr s2, replaceAllPos]

/-- Replacing a pattern sitting after a context free of the pattern's
head character: the occurrence is replaced and scanning continues to
the right of it. -/
theorem replaceAllPos_boundary (s1 s2 rep : Str) (p0 : Char) (pr : Str)
    (h1 : p0 ∉ s1) :
    replaceAllPos (s1 ++ (p0 :: pr) ++ s2) (p0 :: pr) rep
      = s1 ++ rep ++ replaceAllPos s2 (p0 :: pr) rep := by
  rw [List.append_assoc, replaceAllPos_append_left s1 ((p0 :: pr) ++ s2) _ rep p0 pr rfl h1,
    replaceAllPos_cons_self, List.append_assoc]

/-! ### Traversal with an empty rule list -/

theorem anonymizeString_nilRules (a : Anonymizer) (h : a.rules = []) (s : Str) :
    anonymizeString a s = (s, a) := by
  rw [anonymizeString, h]
  simp [collectReplacements, sortReplacements, sortReplacementsGo, runReplacements]

theorem anonymizeNumber_nilRules (a : Anonymizer) (h : a.rules = []) (n : JsonValue) :
    anonymizeNumber a n = (n, a) := by
  rw [anonymizeNumber, h]
  simp [findNumberRule]

mutual

theorem anonymizeValue_nilRules : ∀ (a : Anonymizer), a.rules = [] →
    ∀ p : JsonValue, anonymizeValue a p = (p, a)
  | _, _, .null => by simp [anonymizeValue]
  | _, _, .bool b => by simp [anonymizeValue]
  | a, h, .num q => by rw [anonymizeValue, anonymizeNumber_nilRules a h]
  | a, h, .str s => by rw [anonymizeValue, anonymizeString_nilRules a h]
  | a, h, .arr xs => by rw [anonymizeValue, anonymizeSlice_nilRules a h xs]
  | a, h, .obj fs => by rw [anonymizeValue, anonymizeMap_nilRules a h fs]

theorem anonymizeSlice_nilRules : ∀ (a : Anonymizer), a.rules = [] →
    ∀ xs : List JsonValue, anonymizeSlice a xs = (xs, a)
  | _, _, [] => by simp [anonymizeSlice]
  | a, h, x :: xs => by
    simp [anonymizeSlice, anonymizeValue_nilRules a h x, anonymizeSlice_nilRules a h xs]

theorem anonymizeMap_nilRules : ∀ (a : Anonymizer), a.rules = [] →
    ∀ fs : List (Str × JsonValue), anonymizeMap a fs = (fs, a)
  | _, _, [] => by simp [anonymizeMap]
  | a, h, (k, v) :: fs => by
    simp [anonymizeMap, anonymizeValue_nilRules a h v, anonymizeMap_nilRules a h fs]

end

/-! ### Persistence of the value→code memo -/

/-- Every binding present in the first session's value→code memo is
still present (with the same code) in the second session's memo. -/
def preservesMemo (a b : Anonymizer) : Prop :=
  ∀ key code, alookup key a.valueToCode = some code →
    alookup key b.valueToCode = some code

theorem preservesMemo_refl (a : Anonymizer) : preservesMemo a a := fun _ _ h => h

theorem preservesMemo_trans {a b c : Anonymizer}
    (h1 : preservesMemo a b) (h2 : preservesMemo b c) : preservesMemo a c :=
  fun key code h => h2 key code (h1 key code h)

theorem alookup_aset_of_miss (key key' : Str) (v : α) (c : α) (l : List (Str × α))
    (h : alookup key l = some c) (hmiss : alookup key' l = none) :
    alookup key (aset key' v l) = some c := by
  have hne : key' ≠ key := fun he => by rw [he, h] at hmiss; cases hmiss
  rw [alookup_aset_ne key key' v l hne, h]

theorem generateMapCode_preserves (a : Anonymizer) (v ty : Str) :
    preservesMemo a (generateMapCode a v ty).2 := by
  intro key code h
  rw [generateMapCode]
  cases hm : alookup (ty ++ ':' :: v) a.valueToCode with
  | some c => exact h
  | none => exact alookup_aset_of_miss key _ _ code a.valueToCode h hm

theorem generatePlaceholder_preserves (a : Anonymizer) (v : JsonValue) (ty : Str) :
    preservesMemo a (generatePlaceholder a v ty).2 := by
  intro key code h
  rw [generatePlaceholder]
  cases hm : alookup (ty ++ ':' :: goFormatV v) a.valueToCode with
  | some c => exact h
  | none => exact alookup_aset_of_miss key _ _ code a.valueToCode h hm

theorem transformNumber_preserves (a : Anonymizer) (q : ℚ)
    (params : List (Str × JsonValue)) :
    preservesMemo a (transformNumber a q params).2 := by
  intro key code h
  exact h

theorem applyStrategy_preserves (a : Anonymizer) (v : Str) (rule : AnonymizationRule) :
    preservesMemo a (applyStrategy a v rule).2 := by
  rw [applyStrategy]
  cases rule.strategy with
  | mapCode => exact generateMapCode_preserves a v rule.appliesToType
  | transform => exact preservesMemo_refl a
  | mapPlaceholder => exact preservesMemo_refl a
  | passthrough => exact preservesMemo_refl a

theorem runReplacements_preserves (l : List Replacement) :
    ∀ (a : Anonymizer) (text : Str), preservesMemo a (runReplacements a text l).2 := by
  induction l with
  | nil => intro a text; exact preservesMemo_refl a
  | cons repl rest ih =>
    intro a text
    rw [runReplacements]
    by_cases h : occurs repl.value text
    · rw [if_pos h]
      exact preservesMemo_trans (applyStrategy_preserves a repl.value repl.rule) (ih _ _)
    · rw [if_neg h]
      exact ih a text

theorem anonymizeString_preserves (a : Anonymizer) (s : Str) :
    preservesMemo a (anonymizeString a s).2 :=
  runReplacements_preserves _ a s

theorem applyStrategyToNumber_preserves (a : Anonymizer) (v : JsonValue)
    (rule : AnonymizationRule) :
    preservesMemo a (applyStrategyToNumber a v rule).2 := by
  rw [applyStrategyToNumber]
  cases rule.strategy with
  | mapCode => exact preservesMemo_refl a
  | transform =>
    have h := transformNumber_preserves a (toFloat64 v) rule.strategyParams
    revert h
    cases transformNumber a (toFloat64 v) rule.strategyParams with
    | mk q a2 => exact fun h => h
  | mapPlaceholder =>
    have h := generatePlaceholder_preserves a v rule.appliesToType
    revert h
    cases generatePlaceholder a v rule.appliesToType with
    | mk p a2 => exact fun h => h
  | passthrough => exact preservesMemo_refl a

theorem anonymizeNumber_preserves (a : Anonymizer) (n : JsonValue) :
    preservesMemo a (anonymizeNumber a n).2 := by
  rw [anonymizeNumber]
  cases findNumberRule n a.rules with
  | some rule => exact applyStrategyToNumber_preserves a n rule
  | none => exact preservesMemo_refl a

mutual

theorem anonymizeValue_preserves : ∀ (a : Anonymizer) (p : JsonValue),
    preservesMemo a (anonymizeValue a p).2
  | a, .null => by rw [anonymizeValue]; exact preservesMemo_refl a
  | a, .bool b => by rw [anonymizeValue]; exact preservesMemo_refl a
  | a, .num q => by rw [anonymizeValue]; exact anonymizeNumber_preserves a (.num q)
  | a, .str s => by
    rw [anonymizeValue]
    have h := anonymizeString_preserves a s
    revert h
    cases anonymizeString a s with
    | mk s' a' => exact fun h => h
  | a, .arr xs => by
    rw [anonymizeValue]
    have h := anonymizeSlice_preserves a xs
    revert h
    cases anonymizeSlice a xs with
    | mk ys a' => exact fun h => h
  | a, .obj fs => by
    rw [anonymizeValue]
    have h := anonymizeMap_preserves a fs
    revert h
    cases anonymizeMap a fs with
    | mk gs a' => exact fun h => h

theorem anonymizeSlice_preserves : ∀ (a : Anonymizer) (xs : List JsonValue),
    preservesMemo a (anonymizeSlice a xs).2
  | a, [] => by rw [anonymizeSlice]; exact preservesMemo_refl a
  | a, x :: xs => by
    rw [anonymizeSlice]
    have h1 := anonymizeValue_preserves a x
    have h2 := anonymizeSlice_preserves (anonymizeValue a x).2 xs
    revert h1 h2
    cases anonymizeValue a x with
    | mk y a1 =>
      dsimp only
      intro h1 h2
      revert h2
      cases anonymizeSlice a1 xs with
      | mk ys a2 =>
        dsimp only
        exact fun h2 => preservesMemo_trans h1 h2

theorem anonymizeMap_preserves : ∀ (a : Anonymizer) (fs : List (Str × JsonValue)),
    preservesMemo a (anonymizeMap a fs).2
  | a, [] => by rw [anonymizeMap]; exact preservesMemo_refl a
  | a, (k, v) :: fs => by
    rw [anonymizeMap]
    have h1 := anonymizeValue_preserves a v
    have h2 := anonymizeMap_preserves (anonymizeValue a v).2 fs
    revert h1 h2
    cases anonymizeValue a v with
    | mk v' a1 =>
      dsimp only
      intro h1 h2
      revert h2
      cases anonymizeMap a1 fs with
      | mk fs' a2 =>
        dsimp only
        exact fun h2 => preservesMemo_trans h1 h2

end

theorem generateMapCode_memoises (a : Anonymizer) (v ty : Str) :
    alookup (ty ++ ':' :: v) (generateMapCode a v ty).2.valueToCode
      = some (generateMapCode a v ty).1 := by
  rw [generateMapCode]
  cases hm : alookup (ty ++ ':' :: v) a.valueToCode with
  | some c => exact hm
  | none => exact alookup_aset_self _ _ _

theorem generateMapCode_of_hit (a : Anonymizer) (v ty : Str) (k : Str)
    (h : alookup (ty ++ ':' :: v) a.valueToCode = some k) :
    generateMapCode a v ty = (k, a) := by
  rw [generateMapCode, h]

/-! ## Claim theorems -/

/-- C9, counterexample: a mappings object whose only key is
`categorical_mappings` bound to an empty object yields a mapping table
with neither categorical nor placeholder entries, yet the handler's
emptiness check does not reject it — rejection looks only at the
number of keys of the raw mappings object. -/
theorem C9_counterexample :
    mappingsRejected [("categorical_mappings".toList, .obj [])] = false ∧
    (NewDecryptor [("categorical_mappings".toList, .obj [])]).categoricalMappings = [] ∧
    (NewDecryptor [("categorical_mappings".toList, .obj [])]).codeToValue = [] ∧
    (NewDecryptor [("categorical_mappings".toList, .obj [])]).metricPlaceholderMappings
      = [] := by
  decide

/-- C9, amended: a restore call is rejected for emptiness exactly when
the supplied mappings object has no keys at all; any mappings object
with at least one key — in particular one carrying a categorical or
placeholder entry — is not rejected, but a non-empty object whose
sub-maps are all empty is accepted too. -/
theorem C9_amended (m : List (Str × JsonValue)) :
    (mappingsRejected m = true ↔ m = []) ∧
    (∀ (k : Str) (v : JsonValue) (rest : List (Str × JsonValue)),
      mappingsRejected ((k, v) :: rest) = false) := by
  constructor
  · cases m <;> simp [mappingsRejected]
  · intro k v rest
    simp [mappingsRejected]

/-- C10: the mappings object returned by `GetMappings` carries the
`categorical_mappings` key exactly when the categorical table is
non-empty and the `metric_placeholder_mappings` key exactly when the
placeholder table is non-empty; a masking call that issues no tokens
(here: a run with no rules, which leaves the session untouched)
returns an empty mappings object with neither key. -/
theorem C10_mappings_keys :
    (∀ a : Anonymizer,
      ("categorical_mappings".toList ∈ objKeys (GetMappings a) ↔
        a.categoricalMappings ≠ []) ∧
      ("metric_placeholder_mappings".toList ∈ objKeys (GetMappings a) ↔
        a.metricPlaceholderMappings ≠ [])) ∧
    (∀ (rand : Nat → Nat) (p : JsonValue),
      GetMappings (Anonymize (NewAnonymizer [] rand) p).2 = .obj []) := by
  constructor
  · intro a
    have hne : ("categorical_mappings".toList : Str) ≠ "metric_placeholder_mappings".toList := by
      decide
    constructor
    · cases hc : a.categoricalMappings <;>
        cases hm : a.metricPlaceholderMappings <;>
          simp [GetMappings, objKeys, hc, hm, hne]
    · cases hc : a.categoricalMappings <;>
        cases hm : a.metricPlaceholderMappings <;>
          simp [GetMappings, objKeys, hc, hm, hne, Ne.symm hne]
  · intro rand p
    rw [Anonymize, anonymizeValue_nilRules (NewAnonymizer [] rand) rfl p]
    simp [GetMappings, NewAnonymizer]

/-- C4: code assignment is idempotent within one masking session — a
request for the pair (category, value) immediately after the first
one, and a request made after any amount of further masking work on
an arbitrary payload, both return exactly the code issued the first
time. -/
theorem C4_mapCode_idempotent (a : Anonymizer) (v ty : Str) (p : JsonValue) :
    (generateMapCode (generateMapCode a v ty).2 v ty).1 = (generateMapCode a v ty).1 ∧
    (generateMapCode (anonymizeValue (generateMapCode a v ty).2 p).2 v ty).1
      = (generateMapCode a v ty).1 := by
  have hm := generateMapCode_memoises a v ty
  constructor
  · rw [generateMapCode_of_hit _ v ty _ hm]
  · have hp := anonymizeValue_preserves (generateMapCode a v ty).2 p _ _ hm
    rw [generateMapCode_of_hit _ v ty _ hp]

/-- C6, counterexample: after one placeholder has been issued for
category `A`, the first placeholder issued for category `B` in the
same session is `B_plc_2`, not `B_plc_1` — the numbering counter is
shared by all categories rather than kept per category. -/
theorem C6_counterexample :
    (generatePlaceholder
        (generatePlaceholder (NewAnonymizer [] fun _ => 0) (.num 1) ['A']).2
        (.num 2) ['B']).1 = "B_plc_2".toList ∧
    ("B_plc_2".toList : Str) ≠ "B_plc_1".toList := by
  decide

/-- C6, amended: placeholder numbering uses one session-global
counter shared by every category: issuing a placeholder for a fresh
(category, formatted value) pair increments the counter by one and
yields `category + "_plc_" + counter`, so numbers start at 1 for the
session (not per category), increase monotonically and are never
reused; the memo ensures a later request for the same pair returns
the recorded token. -/
theorem C6_amended (a : Anonymizer) (v : JsonValue) (ty : Str)
    (h : alookup (ty ++ ':' :: goFormatV v) a.valueToCode = none) :
    (generatePlaceholder a v ty).1
      = ty ++ "_plc_".toList ++ natToStr (a.placeholderCounter + 1) ∧
    (generatePlaceholder a v ty).2.placeholderCounter = a.placeholderCounter + 1 ∧
    alookup (ty ++ ':' :: goFormatV v) (generatePlaceholder a v ty).2.valueToCode
      = some (generatePlaceholder a v ty).1 := by
  simp [generatePlaceholder, h, alookup_aset_self]

/-- Witness for C6_amended at a fresh session and category `A`. -/
theorem C6_amended_witness :
    alookup (['A'] ++ ':' :: goFormatV (.num 1))
        (NewAnonymizer [] fun _ => 0).valueToCode = none ∧
    (generatePlaceholder (NewAnonymizer [] fun _ => 0) (.num 1) ['A']).1
      = ['A'] ++ "_plc_".toList
          ++ natToStr ((NewAnonymizer [] fun _ => 0).placeholderCounter + 1) :=
  ⟨by decide,
    (C6_amended (NewAnonymizer [] fun _ => 0) (.num 1) ['A'] (by decide)).1⟩

/-- C5, counterexample: `generateMapCode` performs no collision
retry — with a random source that returns the same bytes for both
draws, the two distinct originals `"x"` and `"y"` masked under the
same category receive the identical code `R_0000`. -/
theorem C5_counterexample :
    (("x".toList : Str) ≠ "y".toList) ∧
    (generateMapCode (NewAnonymizer [] fun _ => 0) "x".toList "R".toList).1
      = (generateMapCode
          (generateMapCode (NewAnonymizer [] fun _ => 0) "x".toList "R".toList).2
          "y".toList "R".toList).1 ∧
    (generateMapCode (NewAnonymizer [] fun _ => 0) "x".toList "R".toList).1
      = "R_0000".toList := by
  decide

/-- C5, amended: no collision check or retry is performed; a fresh
code is always `category + "_" + hex4` built from the next three
random bytes, so two distinct fresh values in the same category get
distinct codes exactly when the realized 4-hex-digit suffixes of
their draws differ (and the identical code when they coincide). -/
theorem C5_amended (a : Anonymizer) (v1 v2 ty : Str)
    (h1 : alookup (ty ++ ':' :: v1) a.valueToCode = none)
    (h2 : alookup (ty ++ ':' :: v2) (generateMapCode a v1 ty).2.valueToCode = none) :
    ((generateMapCode a v1 ty).1
        = ty ++ '_' :: (generateRandomHex a 4).1) ∧
    ((generateMapCode (generateMapCode a v1 ty).2 v2 ty).1
        = ty ++ '_' :: (generateRandomHex (generateMapCode a v1 ty).2 4).1) ∧
    ((generateRandomHex a 4).1 ≠ (generateRandomHex (generateMapCode a v1 ty).2 4).1 →
      (generateMapCode a v1 ty).1 ≠ (generateMapCode (generateMapCode a v1 ty).2 v2 ty).1) := by
  have e1 : (generateMapCode a v1 ty).1 = ty ++ '_' :: (generateRandomHex a 4).1 := by
    rw [generateMapCode, h1]
  have e2 : (generateMapCode (generateMapCode a v1 ty).2 v2 ty).1
      = ty ++ '_' :: (generateRandomHex (generateMapCode a v1 ty).2 4).1 := by
    rw [generateMapCode, h2]
  refine ⟨e1, e2, fun hsuf he => hsuf ?_⟩
  rw [e1, e2] at he
  exact List.cons_injective.eq_iff.mp (List.append_cancel_left he)

/-- Witness for C5_amended: fresh session, identity byte stream, two
distinct values whose realized suffixes differ. -/
theorem C5_amended_witness :
    alookup ("R".toList ++ ':' :: "x".toList)
        (NewAnonymizer [] fun i => i).valueToCode = none ∧
    alookup ("R".toList ++ ':' :: "y".toList)
        (generateMapCode (NewAnonymizer [] fun i => i) "x".toList "R".toList).2.valueToCode
      = none ∧
    (generateMapCode (NewAnonymizer [] fun i => i) "x".toList "R".toList).1
      ≠ (generateMapCode
          (generateMapCode (NewAnonymizer [] fun i => i) "x".toList "R".toList).2
          "y".toList "R".toList).1 :=
  ⟨by decide, by decide,
    (C5_amended (NewAnonymizer [] fun i => i) "x".toList "y".toList "R".toList
      (by decide) (by decide)).2.2 (by decide)⟩

theorem findNumberRule_eq_none_iff (n : JsonValue) (rules : List AnonymizationRule) :
    findNumberRule n rules = none ↔
      ∀ r ∈ rules, ∀ v ∈ r.appliesToValues, compareNumbers v n = false := by
  induction rules with
  | nil => simp [findNumberRule]
  | cons rule rest ih =>
    rw [findNumberRule]
    by_cases h : rule.appliesToValues.any fun v => compareNumbers v n
    · simp only [if_pos h]
      simp only [List.any_eq_true] at h
      obtain ⟨v, hv, hcmp⟩ := h
      constructor
      · intro hcontra; cases hcontra
      · intro hall
        have := hall rule (List.mem_cons_self _ _) v hv
        rw [hcmp] at this
        cases this
    · simp only [if_neg h, ih]
      simp only [List.any_eq_true, not_exists, not_and] at h
      constructor
      · intro hrest r hr v hv
        rcases List.mem_cons.mp hr with rfl | hr'
        · exact Bool.not_eq_true _ ▸ Bool.eq_false_iff.mpr (fun he => h v hv he)
        · exact hrest r hr' v hv
      · intro hall r hr v hv
        exact hall r (List.mem_cons_of_mem _ hr) v hv

/-- C8, counterexample: `toFloat64` coerces a non-numeric literal to
0, so a rule whose only matched literal is the string `"华东"` matches
the numeric leaf 0 and tokenises it — refuting "a literal that is not
a number never matches a numeric leaf". -/
theorem C8_counterexample :
    (anonymizeNumber
        (NewAnonymizer [⟨.mapPlaceholder, [], "N".toList, [.str "华东".toList]⟩] fun _ => 0)
        (.num 0)).1 = .str "N_plc_1".toList ∧
    JsonValue.str "N_plc_1".toList ≠ .num 0 := by
  decide

/-- C8, amended: a numeric leaf is matched by a rule iff some literal
in that rule's matchValues has `toFloat64` coercion (numbers map to
themselves, every non-number to 0) strictly within 1e-4 of the leaf's
value; a numeric leaf with no such literal in any rule is returned
unchanged, session untouched. -/
theorem C8_amended (a : Anonymizer) (n : ℚ) :
    ((findNumberRule (.num n) a.rules).isSome = true ↔
      ∃ r ∈ a.rules, ∃ v ∈ r.appliesToValues, |toFloat64 v - n| < 1 / 10000) ∧
    ((∀ r ∈ a.rules, ∀ v ∈ r.appliesToValues, ¬(|toFloat64 v - n| < 1 / 10000)) →
      anonymizeNumber a (.num n) = (.num n, a)) := by
  have hcmp : ∀ v : JsonValue, compareNumbers v (.num n) = true ↔
      |toFloat64 v - n| < 1 / 10000 := by
    intro v
    rw [compareNumbers, ratAbs_eq_abs]
    simp [toFloat64]
  constructor
  · rw [Option.isSome_iff_ne_none, ne_eq, findNumberRule_eq_none_iff]
    push_neg
    constructor
    · rintro ⟨r, hr, v, hv, hne⟩
      exact ⟨r, hr, v, hv, (hcmp v).mp (Bool.not_eq_false _ ▸ hne)⟩
    · rintro ⟨r, hr, v, hv, hlt⟩
      refine ⟨r, hr, v, hv, ?_⟩
      rw [(hcmp v).mpr hlt]
      exact fun h => by cases h
  · intro hall
    rw [anonymizeNumber, (findNumberRule_eq_none_iff _ _).mpr]
    intro r hr v hv
    have := hall r hr v hv
    rw [← hcmp v] at this
    exact Bool.eq_false_iff.mpr this

/-- Witness for C8_amended: a rule matching only the number 5 leaves
the leaf 0 unchanged. -/
theorem C8_amended_witness :
    (∀ r ∈ (NewAnonymizer [⟨.mapCode, [], "M".toList, [.num 5]⟩] fun _ => 0).rules,
      ∀ v ∈ r.appliesToValues, ¬(|toFloat64 v - (0 : ℚ)| < 1 / 10000)) ∧
    anonymizeNumber (NewAnonymizer [⟨.mapCode, [], "M".toList, [.num 5]⟩] fun _ => 0)
        (.num 0)
      = (.num 0, NewAnonymizer [⟨.mapCode, [], "M".toList, [.num 5]⟩] fun _ => 0) :=
  have h : ∀ r ∈ (NewAnonymizer [⟨.mapCode, [], "M".toList, [.num 5]⟩] fun _ => 0).rules,
      ∀ v ∈ r.appliesToValues, ¬(|toFloat64 v - (0 : ℚ)| < 1 / 10000) := by
    intro r hr v hv
    simp only [NewAnonymizer, List.mem_singleton] at hr
    subst hr
    simp only [List.mem_singleton] at hv
    subst hv
    rw [toFloat64]
    norm_num
  ⟨h, (C8_amended (NewAnonymizer [⟨.mapCode, [], "M".toList, [.num 5]⟩] fun _ => 0) 0).2 h⟩

theorem randFloat_num_le (a : Anonymizer) :
    (List.range 8).foldl (fun acc i => acc * 256 + a.rand (a.randPos + i) % 256) 0
      ≤ 2 ^ 64 - 1 := by
  rw [show List.range 8 = [0, 1, 2, 3, 4, 5, 6, 7] from rfl]
  simp only [List.foldl]
  have h0 : a.rand (a.randPos + 0) % 256 < 256 := Nat.mod_lt _ (by norm_num)
  have h1 : a.rand (a.randPos + 1) % 256 < 256 := Nat.mod_lt _ (by norm_num)
  have h2 : a.rand (a.randPos + 2) % 256 < 256 := Nat.mod_lt _ (by norm_num)
  have h3 : a.rand (a.randPos + 3) % 256 < 256 := Nat.mod_lt _ (by norm_num)
  have h4 : a.rand (a.randPos + 4) % 256 < 256 := Nat.mod_lt _ (by norm_num)
  have h5 : a.rand (a.randPos + 5) % 256 < 256 := Nat.mod_lt _ (by norm_num)
  have h6 : a.rand (a.randPos + 6) % 256 < 256 := Nat.mod_lt _ (by norm_num)
  have h7 : a.rand (a.randPos + 7) % 256 < 256 := Nat.mod_lt _ (by norm_num)
  omega

theorem randFloat_mem_unit (a : Anonymizer) :
    0 ≤ (randFloat a).1 ∧ (randFloat a).1 ≤ 1 := by
  rw [randFloat]
  constructor
  · positivity
  · rw [div_le_one (by norm_num)]
    calc (((List.range 8).foldl (fun acc i => acc * 256 + a.rand (a.randPos + i) % 256) 0 : ℕ) : ℚ)
        ≤ ((2 ^ 64 - 1 : ℕ) : ℚ) := Nat.cast_le.mpr (randFloat_num_le a)
      _ = (2 ^ 64 : ℚ) - 1 := by norm_num

/-- C7: TRANSFORM returns `original + original * noiseLevel * r` with
`r ∈ [-1, 1]`; with `noise_level = 0.05` and original `1500000` every
possible output lies in `[1425000, 1575000]`; and the noise level
defaults to `0.05` whenever the params carry no numeric
`noise_level`. -/
theorem C7_transform_noise (a : Anonymizer) (q : ℚ) (params : List (Str × JsonValue)) :
    (∃ r : ℚ, -1 ≤ r ∧ r ≤ 1 ∧
      (transformNumber a q params).1 = q + q * noiseLevelOf params * r) ∧
    (1425000 ≤ (transformNumber a 1500000 [("noise_level".toList, .num (1 / 20))]).1 ∧
      (transformNumber a 1500000 [("noise_level".toList, .num (1 / 20))]).1 ≤ 1575000) ∧
    noiseLevelOf [] = 1 / 20 ∧
    (∀ ps : List (Str × JsonValue),
      (∀ x : ℚ, alookup "noise_level".toList ps ≠ some (.num x)) →
      noiseLevelOf ps = 1 / 20) := by
  obtain ⟨hf0, hf1⟩ := randFloat_mem_unit a
  refine ⟨⟨(randFloat a).1 * 2 - 1, by linarith, by linarith, ?_⟩, ⟨?_, ?_⟩, ?_, ?_⟩
  · rw [transformNumber]
  · rw [transformNumber,
      show noiseLevelOf [("noise_level".toList, .num (1 / 20))] = 1 / 20 from by
        simp [noiseLevelOf, alookup]]
    nlinarith [hf0, hf1]
  · rw [transformNumber,
      show noiseLevelOf [("noise_level".toList, .num (1 / 20))] = 1 / 20 from by
        simp [noiseLevelOf, alookup]]
    nlinarith [hf0, hf1]
  · rw [noiseLevelOf]
    simp [alookup]
  · intro ps hps
    rw [noiseLevelOf]
    cases hl : alookup "noise_level".toList ps with
    | none => rfl
    | some v =>
      cases v with
      | num x => exact absurd hl (hps x)
      | null => rfl
      | bool b => rfl
      | str s => rfl
      | arr xs => rfl
      | obj fs => rfl

/-- Witness for C7_transform_noise: the all-zero random source yields
exactly the lower bound 1425000, inside the claimed interval. -/
theorem C7_transform_noise_witness :
    (∀ x : ℚ, alookup "noise_level".toList ([] : List (Str × JsonValue)) ≠ some (.num x)) ∧
    noiseLevelOf [] = 1 / 20 ∧
    (1425000 ≤ (transformNumber (NewAnonymizer [] fun _ => 0) 1500000
        [("noise_level".toList, .num (1 / 20))]).1 ∧
      (transformNumber (NewAnonymizer [] fun _ => 0) 1500000
        [("noise_level".toList, .num (1 / 20))]).1 ≤ 1575000) :=
  ⟨fun x h => by simp [alookup] at h,
    (C7_transform_noise (NewAnonymizer [] fun _ => 0) 0 []).2.2.2 []
      (fun x h => by simp [alookup] at h),
    (C7_transform_noise (NewAnonymizer [] fun _ => 0) 0 []).2.1⟩

theorem foldl_replaceAll_delim_no_brace {β : Type} (key rep : β → Str)
    (l : List β) (text : Str) (h : '{' ∉ text) :
    l.foldl (fun res e => replaceAll res ('{' :: key e ++ ['}']) (rep e)) text = text := by
  induction l with
  | nil => rfl
  | cons e rest ih =>
    have hocc : occurs ('{' :: key e ++ ['}']) text = false :=
      not_occurs_of_head_not_mem '{' (key e ++ ['}']) text h
    rw [List.foldl_cons,
      replaceAll_of_not_occurs text ('{' :: key e ++ ['}']) (rep e) hocc (by simp), ih]

theorem decryptStringDelim_no_brace (d : Decryptor) (text : Str) (h : '{' ∉ text) :
    decryptStringDelim d text = text := by
  rw [decryptStringDelim]
  rw [foldl_replaceAll_delim_no_brace Prod.fst Prod.snd d.codeToValue text h]
  exact foldl_replaceAll_delim_no_brace Prod.fst (fun e => formatValue e.2)
    d.metricPlaceholderMappings text h

theorem NewDecryptor_singleton (ty c v : Str) :
    NewDecryptor [("categorical_mappings".toList, .obj [(ty, .obj [(c, .str v)])])]
      = ⟨[(ty, [(c, v)])], [], [(c, v)]⟩ := by
  rw [NewDecryptor]
  rw [show alookup "categorical_mappings".toList
      [("categorical_mappings".toList, JsonValue.obj [(ty, .obj [(c, .str v)])])]
      = some (.obj [(ty, .obj [(c, .str v)])]) from by simp [alookup]]
  rw [show alookup "metric_placeholder_mappings".toList
      [("categorical_mappings".toList, JsonValue.obj [(ty, .obj [(c, .str v)])])]
      = none from by simp [alookup]]
  simp only [List.foldl_cons, List.foldl_nil]
  rw [addTypeEntries]
  simp only [List.foldl_cons, List.foldl_nil]
  simp [aset, alookup]

/-- C2, counterexample: when an original value itself contains a
delimited occurrence of another known token, the sequential
substitution passes cascade — restoring `{R_1111}` with the table
`R_1111 → "{R_2222}"`, `R_2222 → "x"` yields `"x"`, not the original
value `"{R_2222}"` of the delimited token that occurred in the
input. -/
theorem C2_counterexample :
    DecryptText (NewDecryptor
        [("categorical_mappings".toList, .obj
          [("R".toList, .obj
            [("R_1111".toList, .str "{R_2222}".toList),
             ("R_2222".toList, .str "x".toList)])])])
      "{R_1111}".toList = "x".toList ∧
    ("x".toList : Str) ≠ "{R_2222}".toList := by
  decide

/-- C2, amended: provided no original value re-introduces a delimited
token (sequential substitution can cascade otherwise), text-mode
restore implements delimiter discipline: a text containing no `{` at
all — in particular one made only of bare token occurrences — is
returned unchanged for every mapping table; for a table with a single
categorical mapping `c → v`, a text `s1 {c} s2` with brace-free
`s1, s2` restores to `s1 v s2`; the claim's own example restores to
"分析 REGION_a3f5 vs 华东"; and a delimited occurrence of a token
unknown to the table is left exactly as received. -/
theorem C2_amended :
    (∀ (d : Decryptor) (text : Str), '{' ∉ text → DecryptText d text = text) ∧
    (∀ (ty c v s1 s2 : Str), '{' ∉ s1 → '{' ∉ s2 →
      DecryptText (NewDecryptor
          [("categorical_mappings".toList, .obj [(ty, .obj [(c, .str v)])])])
        (s1 ++ wrapToken c ++ s2) = s1 ++ v ++ s2) ∧
    DecryptText (NewDecryptor
        [("categorical_mappings".toList, .obj
          [("REGION".toList, .obj [("REGION_a3f5".toList, .str "华东".toList)])])])
      "分析 REGION_a3f5 vs {REGION_a3f5}".toList
      = "分析 REGION_a3f5 vs 华东".toList ∧
    DecryptText (NewDecryptor
        [("categorical_mappings".toList, .obj
          [("REGION".toList, .obj [("REGION_a3f5".toList, .str "华东".toList)])])])
      "{UNKNOWN_1}".toList = "{UNKNOWN_1}".toList := by
  refine ⟨fun d text h => decryptStringDelim_no_brace d text h, ?_, by decide, by decide⟩
  intro ty c v s1 s2 h1 h2
  rw [DecryptText, NewDecryptor_singleton, decryptStringDelim]
  show List.foldl _ (List.foldl _ (s1 ++ wrapToken c ++ s2) [(c, v)]) [] = s1 ++ v ++ s2
  rw [List.foldl_nil, List.foldl_cons, List.foldl_nil]
  show replaceAll (s1 ++ wrapToken c ++ s2) ('{' :: (c ++ ['}'])) v = s1 ++ v ++ s2
  rw [replaceAll, if_neg (by simp),
    show s1 ++ wrapToken c ++ s2 = s1 ++ ('{' :: (c ++ ['}'])) ++ s2 from rfl,
    replaceAllPos_boundary s1 s2 v '{' (c ++ ['}']) h1,
    replaceAllPos_of_not_occurs s2 _ v (not_occurs_of_head_not_mem '{' _ s2 h2)]

/-- Witness for C2_amended at the claim's own example text. -/
theorem C2_amended_witness :
    (('{' ∉ ("分析 REGION_a3f5 vs ".toList : Str)) ∧ ('{' ∉ ([] : Str))) ∧
    DecryptText (NewDecryptor
        [("categorical_mappings".toList, .obj
          [("REGION".toList, .obj [("REGION_a3f5".toList, .str "华东".toList)])])])
      ("分析 REGION_a3f5 vs ".toList ++ wrapToken "REGION_a3f5".toList ++ [])
      = "分析 REGION_a3f5 vs ".toList ++ "华东".toList ++ [] :=
  ⟨⟨by decide, by decide⟩,
    C2_amended.2.1 "REGION".toList "REGION_a3f5".toList "华东".toList
      "分析 REGION_a3f5 vs ".toList [] (by decide) (by decide)⟩

/-! ### Sort order of the substitution list -/

theorem bubbleMax_le_fst (best : Replacement) (l : List Replacement) :
    best.len ≤ (bubbleMax best l).1.len ∧
    ∀ y ∈ (bubbleMax best l).2, y.len ≤ (bubbleMax best l).1.len := by
  induction l generalizing best with
  | nil => simp [bubbleMax]
  | cons x xs ih =>
    rw [bubbleMax]
    by_cases h : best.len < x.len
    · rw [if_pos h]
      obtain ⟨h1, h2⟩ := ih x
      revert h1 h2
      cases bubbleMax x xs with
      | mk b ys =>
        intro h1 h2
        refine ⟨le_of_lt (lt_of_lt_of_le h h1), ?_⟩
        intro y hy
        rcases List.mem_cons.mp hy with rfl | hy'
        · exact le_of_lt (lt_of_lt_of_le h h1)
        · exact h2 y hy'
    · rw [if_neg h]
      obtain ⟨h1, h2⟩ := ih best
      revert h1 h2
      cases bubbleMax best xs with
      | mk b ys =>
        intro h1 h2
        refine ⟨h1, ?_⟩
        intro y hy
        rcases List.mem_cons.mp hy with rfl | hy'
        · exact le_trans (not_lt.mp h) h1
        · exact h2 y hy'

theorem bubbleMax_fst_mem (best : Replacement) (l : List Replacement) :
    (bubbleMax best l).1 = best ∨ (bubbleMax best l).1 ∈ l := by
  induction l generalizing best with
  | nil => simp [bubbleMax]
  | cons x xs ih =>
    rw [bubbleMax]
    by_cases h : best.len < x.len
    · rw [if_pos h]
      have hb := ih x
      revert hb
      cases bubbleMax x xs with
      | mk b ys =>
        intro hb
        dsimp only at hb ⊢
        rcases hb with rfl | hb'
        · exact Or.inr (List.mem_cons_self _ _)
        · exact Or.inr (List.mem_cons_of_mem _ hb')
    · rw [if_neg h]
      have hb := ih best
      revert hb
      cases bubbleMax best xs with
      | mk b ys =>
        intro hb
        dsimp only at hb ⊢
        rcases hb with rfl | hb'
        · exact Or.inl rfl
        · exact Or.inr (List.mem_cons_of_mem _ hb')

theorem bubbleMax_snd_sub (best : Replacement) (l : List Replacement) :
    ∀ y ∈ (bubbleMax best l).2, y = best ∨ y ∈ l := by
  induction l generalizing best with
  | nil => simp [bubbleMax]
  | cons x xs ih =>
    rw [bubbleMax]
    by_cases h : best.len < x.len
    · rw [if_pos h]
      have ih' := ih x
      revert ih'
      cases bubbleMax x xs with
      | mk b ys =>
        intro ih' y hy
        rcases List.mem_cons.mp hy with rfl | hy'
        · exact Or.inl rfl
        · rcases ih' y hy' with rfl | h'
          · exact Or.inr (List.mem_cons_self _ _)
          · exact Or.inr (List.mem_cons_of_mem _ h')
    · rw [if_neg h]
      have ih' := ih best
      revert ih'
      cases bubbleMax best xs with
      | mk b ys =>
        intro ih' y hy
        rcases List.mem_cons.mp hy with rfl | hy'
        · exact Or.inr (List.mem_cons_self _ _)
        · rcases ih' y hy' with rfl | h'
          · exact Or.inl rfl
          · exact Or.inr (List.mem_cons_of_mem _ h')

theorem mem_sortReplacementsGo (fuel : Nat) :
    ∀ (l : List Replacement) (z : Replacement),
      z ∈ sortReplacementsGo fuel l → z ∈ l := by
  induction fuel with
  | zero =>
    intro l z hz
    cases l with
    | nil => simp [sortReplacementsGo] at hz
    | cons x xs => exact hz
  | succ fuel ih =>
    intro l z hz
    cases l with
    | nil => simp [sortReplacementsGo] at hz
    | cons x xs =>
      rw [sortReplacementsGo] at hz
      rcases List.mem_cons.mp hz with rfl | hz'
      · rcases bubbleMax_fst_mem x xs with h | h
        · rw [h]
          exact List.mem_cons_self _ _
        · exact List.mem_cons_of_mem _ h
      · rcases bubbleMax_snd_sub x xs z (ih _ z hz') with rfl | h
        · exact List.mem_cons_self _ _
        · exact List.mem_cons_of_mem _ h

theorem sortReplacementsGo_pairwise (fuel : Nat) :
    ∀ l : List Replacement, l.length ≤ fuel →
      List.Pairwise (fun x y => y.len ≤ x.len) (sortReplacementsGo fuel l) := by
  induction fuel with
  | zero =>
    intro l hl
    have hnil : l = [] := List.length_eq_zero.mp (Nat.le_zero.mp hl)
    subst hnil
    simp [sortReplacementsGo]
  | succ fuel ih =>
    intro l hl
    cases l with
    | nil => simp [sortReplacementsGo]
    | cons x xs =>
      rw [sortReplacementsGo]
      refine List.Pairwise.cons ?_ (ih _ ?_)
      · intro z hz
        exact (bubbleMax_le_fst x xs).2 z (mem_sortReplacementsGo fuel _ z hz)
      · rw [bubbleMax_snd_length]
        simpa using Nat.le_of_succ_le_succ hl

theorem sortReplacements_pairwise (l : List Replacement) :
    List.Pairwise (fun x y => y.len ≤ x.len) (sortReplacements l) :=
  sortReplacementsGo_pairwise l.length l le_rfl

/-- Hexadecimal digits as produced by `hexDigit`. -/
def hexDigits : Str := "0123456789abcdef".toList

theorem hexDigit_mem (n : Nat) : hexDigit n ∈ hexDigits := by
  have h : n % 16 = 0 ∨ n % 16 = 1 ∨ n % 16 = 2 ∨ n % 16 = 3 ∨ n % 16 = 4 ∨
      n % 16 = 5 ∨ n % 16 = 6 ∨ n % 16 = 7 ∨ n % 16 = 8 ∨ n % 16 = 9 ∨
      n % 16 = 10 ∨ n % 16 = 11 ∨ n % 16 = 12 ∨ n % 16 = 13 ∨ n % 16 = 14 ∨
      n % 16 = 15 := by omega
  rcases h with h | h | h | h | h | h | h | h | h | h | h | h | h | h | h | h <;>
    simp [hexDigit, h, hexDigits]

theorem generateRandomHex_mem (a : Anonymizer) (n : Nat) :
    ∀ ch ∈ (generateRandomHex a n).1, ch ∈ hexDigits := by
  intro ch hch
  rw [generateRandomHex] at hch
  have hch' := List.mem_of_mem_take hch
  rw [hexEncode] at hch'
  rw [List.mem_flatten] at hch'
  obtain ⟨pair, hpair, hmem⟩ := hch'
  rw [List.mem_map] at hpair
  obtain ⟨b, _, rfl⟩ := hpair
  rcases List.mem_cons.mp hmem with rfl | hmem'
  · exact hexDigit_mem _
  · rcases List.mem_cons.mp hmem' with rfl | hmem''
    · exact hexDigit_mem _
    · simp at hmem''

theorem applyStrategy_mapCode (a : Anonymizer) (v : Str) (rule : AnonymizationRule)
    (h : rule.strategy = .mapCode) :
    applyStrategy a v rule = generateMapCode a v rule.appliesToType := by
  rw [applyStrategy, h]

theorem generateMapCode_fst_of_miss (a : Anonymizer) (v ty : Str)
    (h : alookup (ty ++ ':' :: v) a.valueToCode = none) :
    (generateMapCode a v ty).1 = ty ++ '_' :: (generateRandomHex a 4).1 := by
  rw [generateMapCode, h]

theorem generateMapCode_valueToCode_of_miss (a : Anonymizer) (v ty : Str)
    (h : alookup (ty ++ ':' :: v) a.valueToCode = none) :
    (generateMapCode a v ty).2.valueToCode
      = aset (ty ++ ':' :: v) (ty ++ '_' :: (generateRandomHex a 4).1) a.valueToCode := by
  rw [generateMapCode, h]

theorem runReplacements_cons_occurs (a : Anonymizer) (text : Str) (repl : Replacement)
    (rest : List Replacement) (h : occurs repl.value text = true) :
    runReplacements a text (repl :: rest)
      = runReplacements (applyStrategy a repl.value repl.rule).2
          (replaceAll text repl.value (applyStrategy a repl.value repl.rule).1) rest := by
  rw [runReplacements, if_pos h]

/-- The two rules of the repository's replacement-order test: MAP_CODE
on the short literal `"华东"` (category SHORT) and on the long literal
`"华东地区"` (category LONG). -/
def shortRule : AnonymizationRule :=
  ⟨.mapCode, [], "SHORT".toList, [.str "华东".toList]⟩

/-- See `shortRule`. -/
def longRule : AnonymizationRule :=
  ⟨.mapCode, [], "LONG".toList, [.str "华东地区".toList]⟩

theorem anonymizeString_longest_first (rand : Nat → Nat) :
    ∃ hex1 hex2 : Str,
      (∀ ch ∈ hex1, ch ∈ hexDigits) ∧ (∀ ch ∈ hex2, ch ∈ hexDigits) ∧
      (anonymizeString (NewAnonymizer [shortRule, longRule] rand)
          "华东地区的华东".toList).1
        = ("LONG".toList ++ '_' :: hex1) ++ '的' :: ("SHORT".toList ++ '_' :: hex2) := by
  set a0 := NewAnonymizer [shortRule, longRule] rand with ha0
  refine ⟨(generateRandomHex a0 4).1,
    (generateRandomHex (generateMapCode a0 "华东地区".toList "LONG".toList).2 4).1,
    generateRandomHex_mem a0 4, generateRandomHex_mem _ 4, ?_⟩
  rw [anonymizeString]
  rw [show sortReplacements (collectReplacements a0.rules)
      = [⟨"华东地区".toList, longRule⟩, ⟨"华东".toList, shortRule⟩] from by
    rw [show a0.rules = [shortRule, longRule] from rfl]
    decide]
  rw [runReplacements_cons_occurs _ _ _ _ (by decide)]
  rw [show applyStrategy a0 (Replacement.mk "华东地区".toList longRule).value
        (Replacement.mk "华东地区".toList longRule).rule
      = generateMapCode a0 "华东地区".toList "LONG".toList from
    applyStrategy_mapCode _ _ _ rfl]
  set g1 := generateMapCode a0 "华东地区".toList "LONG".toList with hg1
  have hcode1 : g1.1 = "LONG".toList ++ '_' :: (generateRandomHex a0 4).1 :=
    generateMapCode_fst_of_miss a0 _ _ rfl
  have htext1 : replaceAll "华东地区的华东".toList
      (Replacement.mk "华东地区".toList longRule).value g1.1
      = g1.1 ++ "的华东".toList := by
    rw [show ("华东地区的华东".toList : Str)
        = ('华' :: "东地区".toList) ++ "的华东".toList from rfl]
    rw [replaceAll, if_neg (by decide)]
    rw [show ((Replacement.mk "华东地区".toList longRule).value : Str)
        = '华' :: "东地区".toList from rfl]
    rw [replaceAllPos_cons_self, replaceAllPos_of_not_occurs _ _ _ (by decide)]
  rw [htext1]
  have hocc2 : occurs (Replacement.mk "华东".toList shortRule).value
      (g1.1 ++ "的华东".toList) = true :=
    occurs_append_right _ _ _ (by decide)
  rw [runReplacements_cons_occurs _ _ _ _ hocc2]
  rw [show applyStrategy g1.2 (Replacement.mk "华东".toList shortRule).value
        (Replacement.mk "华东".toList shortRule).rule
      = generateMapCode g1.2 "华东".toList "SHORT".toList from
    applyStrategy_mapCode _ _ _ rfl]
  have hmiss2 : alookup ("SHORT".toList ++ ':' :: "华东".toList) g1.2.valueToCode
      = none := by
    rw [hg1, generateMapCode_valueToCode_of_miss a0 _ _ rfl]
    rw [show a0.valueToCode = [] from rfl]
    rw [show aset ("LONG".toList ++ ':' :: "华东地区".toList)
        ("LONG".toList ++ '_' :: (generateRandomHex a0 4).1) []
        = [("LONG".toList ++ ':' :: "华东地区".toList,
            "LONG".toList ++ '_' :: (generateRandomHex a0 4).1)] from rfl]
    rw [alookup, if_neg (by decide)]
    rfl
  have hcode2 : (generateMapCode g1.2 "华东".toList "SHORT".toList).1
      = "SHORT".toList ++ '_' :: (generateRandomHex g1.2 4).1 :=
    generateMapCode_fst_of_miss _ _ _ hmiss2
  have hhua1 : '华' ∉ g1.1 ++ ['的'] := by
    rw [hcode1]
    intro hmem
    simp only [List.mem_append, List.mem_cons] at hmem
    rcases hmem with (h | h) | h
    · revert h; decide
    · rcases h with h | h
      · cases h
      · have := generateRandomHex_mem a0 4 '华' h
        revert this; decide
    · simp at h
  have htext2 : replaceAll (g1.1 ++ "的华东".toList)
      (Replacement.mk "华东".toList shortRule).value
      (generateMapCode g1.2 "华东".toList "SHORT".toList).1
      = g1.1 ++ '的' :: (generateMapCode g1.2 "华东".toList "SHORT".toList).1 := by
    rw [show (g1.1 ++ "的华东".toList : Str)
        = (g1.1 ++ ['的']) ++ ('华' :: "东".toList) ++ [] from by simp]
    rw [replaceAll, if_neg (by decide)]
    rw [show ((Replacement.mk "华东".toList shortRule).value : Str)
        = '华' :: "东".toList from rfl]
    rw [replaceAllPos_boundary _ _ _ _ _ hhua1,
      replaceAllPos_of_not_occurs _ _ _ (by decide)]
    simp
  rw [htext2, runReplacements, hcode1, hcode2]

/-- C3: the substitution list built by `anonymizeString` is sorted by
non-increasing Go byte length, so whenever one matched literal is a
substring of another the longer is substituted first; in particular
masking `"华东地区的华东"` under MAP_CODE rules for `"华东"` and
`"华东地区"` leaves no occurrence of either literal in the output,
whatever bytes the random source returns. -/
theorem C3_longest_match (rules : List AnonymizationRule) (rand : Nat → Nat) :
    List.Pairwise (fun x y => y.len ≤ x.len)
      (sortReplacements (collectReplacements rules)) ∧
    (occurs "华东".toList
        (anonymizeString (NewAnonymizer [shortRule, longRule] rand)
          "华东地区的华东".toList).1 = false ∧
      occurs "华东地区".toList
        (anonymizeString (NewAnonymizer [shortRule, longRule] rand)
          "华东地区的华东".toList).1 = false) := by
  refine ⟨sortReplacements_pairwise _, ?_⟩
  obtain ⟨hex1, hex2, hh1, hh2, hres⟩ := anonymizeString_longest_first rand
  rw [hres]
  have hhua : '华' ∉ (("LONG".toList ++ '_' :: hex1) ++
      '的' :: ("SHORT".toList ++ '_' :: hex2) : Str) := by
    intro hmem
    simp only [List.mem_append, List.mem_cons] at hmem
    rcases hmem with (h | h) | h
    · revert h; decide
    · rcases h with h | h
      · cases h
      · have := hh1 '华' h
        revert this; decide
    · rcases h with h | h
      · cases h
      · rcases h with h | h
        · revert h; decide
        · rcases h with h | h
          · cases h
          · have := hh2 '华' h
            revert this; decide
  constructor
  · exact not_occurs_of_head_not_mem '华' "东".toList _ hhua
  · exact not_occurs_of_head_not_mem '华' "东地区".toList _ hhua

theorem occurs_self (v : Str) (hv : v ≠ []) : occurs v v = true := by
  obtain ⟨c, rest, rfl⟩ : ∃ c rest, v = c :: rest := by
    cases v with
    | nil => exact absurd rfl hv
    | cons c rest => exact ⟨c, rest, rfl⟩
  rw [occurs]
  simp [List.isPrefixOf_iff_prefix]

/-- The MAP_PLACEHOLDER rule used in the round-trip counterexample. -/
def plcRule : AnonymizationRule :=
  ⟨.mapPlaceholder, [], "USER_COUNT".toList, [.num 12000]⟩

/-- C1, counterexample: under a rule set free of TRANSFORM (one
MAP_PLACEHOLDER rule), the number 12000 masks to the placeholder
string `USER_COUNT_plc_1`; restoring that payload with every emitted
token wrapped in `{}` does not give back 12000 with its native type:
text-mode restore yields the string "12000" and the structured
decryptor leaves the braces, yielding "{12000}". -/
theorem C1_counterexample :
    (∀ r ∈ [plcRule], r.strategy ≠ .transform) ∧
    (Anonymize (NewAnonymizer [plcRule] fun _ => 0) (.num 12000)).1
      = .str "USER_COUNT_plc_1".toList ∧
    DecryptText
        (NewDecryptor (objFields
          (GetMappings (Anonymize (NewAnonymizer [plcRule] fun _ => 0) (.num 12000)).2)))
        (wrapTokens ["USER_COUNT_plc_1".toList] "USER_COUNT_plc_1".toList)
      = "12000".toList ∧
    JsonValue.str "12000".toList ≠ .num 12000 ∧
    Decrypt
        (NewDecryptor (objFields
          (GetMappings (Anonymize (NewAnonymizer [plcRule] fun _ => 0) (.num 12000)).2)))
        (.str "{USER_COUNT_plc_1}".toList)
      = .str "{12000}".toList ∧
    JsonValue.str "{12000}".toList ≠ .num 12000 := by
  simp only [Anonymize, anonymizeValue]
  decide

/-- C1, amended: for a MAP_CODE rule set and a string payload wholly
equal to the (nonempty) matched literal, the round trip does hold:
masking yields the issued code as the whole leaf, the mapping table
carries exactly that code, and text-mode restore of the
delimiter-wrapped code returns the original payload with its native
string type; under PASSTHROUGH the payload, table and restore are all
identities.  (MAP_PLACEHOLDER is excluded: wrapping defeats the
whole-leaf native-type restore, as the counterexample shows.) -/
theorem C1_amended (ty v : Str) (rand : Nat → Nat) (hv : v ≠ []) :
    (∃ code : Str,
      (Anonymize (NewAnonymizer [⟨.mapCode, [], ty, [.str v]⟩] rand) (.str v)).1
        = .str code ∧
      GetMappings
          (Anonymize (NewAnonymizer [⟨.mapCode, [], ty, [.str v]⟩] rand) (.str v)).2
        = .obj [("categorical_mappings".toList, .obj [(ty, .obj [(code, .str v)])])] ∧
      JsonValue.str (DecryptText
          (NewDecryptor (objFields (GetMappings
            (Anonymize (NewAnonymizer [⟨.mapCode, [], ty, [.str v]⟩] rand)
              (.str v)).2)))
          (wrapTokens [code] code))
        = .str v) ∧
    ((Anonymize (NewAnonymizer [⟨.passthrough, [], ty, [.str v]⟩] rand) (.str v)).1
        = .str v ∧
      GetMappings
          (Anonymize (NewAnonymizer [⟨.passthrough, [], ty, [.str v]⟩] rand) (.str v)).2
        = .obj [] ∧
      JsonValue.str (DecryptText
          (NewDecryptor (objFields (GetMappings
            (Anonymize (NewAnonymizer [⟨.passthrough, [], ty, [.str v]⟩] rand)
              (.str v)).2)))
          (wrapTokens [] v))
        = .str v) := by
  constructor
  · set a0 := NewAnonymizer [⟨.mapCode, [], ty, [.str v]⟩] rand with ha0
    have hmask : Anonymize a0 (.str v)
        = (.str (generateMapCode a0 v ty).1, (generateMapCode a0 v ty).2) := by
      rw [Anonymize, anonymizeValue, anonymizeString]
      rw [show sortReplacements (collectReplacements a0.rules)
          = [⟨v, ⟨.mapCode, [], ty, [.str v]⟩⟩] from rfl]
      rw [runReplacements_cons_occurs _ _ _ _ (occurs_self v hv)]
      rw [show applyStrategy a0 (Replacement.mk v ⟨.mapCode, [], ty, [.str v]⟩).value
            (Replacement.mk v ⟨.mapCode, [], ty, [.str v]⟩).rule
          = generateMapCode a0 v ty from applyStrategy_mapCode _ _ _ rfl]
      rw [replaceAll_self v _ hv, runReplacements]
    have hcode : (generateMapCode a0 v ty).1
        = ty ++ '_' :: (generateRandomHex a0 4).1 :=
      generateMapCode_fst_of_miss a0 v ty rfl
    have hcodenil : (generateMapCode a0 v ty).1 ≠ [] := by
      rw [hcode]
      simp
    have hmaps : GetMappings (generateMapCode a0 v ty).2
        = .obj [("categorical_mappings".toList,
            .obj [(ty, .obj [((generateMapCode a0 v ty).1, .str v)])])] := by
      rw [show (generateMapCode a0 v ty).2
          = { (generateRandomHex a0 4).2 with
              categoricalMappings :=
                aset ty (aset (ty ++ '_' :: (generateRandomHex a0 4).1) v
                  ((alookup ty (aset ty [] a0.categoricalMappings)).getD []))
                  (aset ty [] a0.categoricalMappings)
              typeCounters := aset ty ((alookup ty a0.typeCounters).getD 0 + 1) a0.typeCounters
              valueToCode := aset (ty ++ ':' :: v)
                (ty ++ '_' :: (generateRandomHex a0 4).1) a0.valueToCode } from by
        rw [generateMapCode]
        rfl]
      rw [hcode]
      rw [show a0.categoricalMappings = [] from rfl]
      simp only [GetMappings, aset, alookup]
      rw [show (generateRandomHex a0 4).2.metricPlaceholderMappings = [] from rfl]
      simp [aset, alookup]
    refine ⟨(generateMapCode a0 v ty).1, by rw [hmask], by rw [hmask]; exact hmaps, ?_⟩
    rw [hmask]
    dsimp only
    rw [hmaps]
    rw [show objFields (JsonValue.obj [("categorical_mappings".toList,
        .obj [(ty, .obj [((generateMapCode a0 v ty).1, .str v)])])])
      = [("categorical_mappings".toList,
          .obj [(ty, .obj [((generateMapCode a0 v ty).1, .str v)])])] from rfl]
    rw [NewDecryptor_singleton]
    rw [show wrapTokens [(generateMapCode a0 v ty).1] (generateMapCode a0 v ty).1
        = wrapToken (generateMapCode a0 v ty).1 from by
      rw [wrapTokens, List.foldl_cons, List.foldl_nil, replaceAll_self _ _ hcodenil]]
    rw [DecryptText, decryptStringDelim]
    show JsonValue.str (List.foldl _ (List.foldl _ (wrapToken (generateMapCode a0 v ty).1)
      [((generateMapCode a0 v ty).1, v)]) []) = .str v
    rw [List.foldl_cons, List.foldl_nil, List.foldl_nil]
    rw [show replaceAll (wrapToken (generateMapCode a0 v ty).1)
        ('{' :: (generateMapCode a0 v ty).1 ++ ['}']) v = v from
      replaceAll_self _ _ (by simp [wrapToken])]
  · set a0 := NewAnonymizer [⟨.passthrough, [], ty, [.str v]⟩] rand with ha0
    have hmask : Anonymize a0 (.str v) = (.str v, a0) := by
      rw [Anonymize, anonymizeValue, anonymizeString]
      rw [show sortReplacements (collectReplacements a0.rules)
          = [⟨v, ⟨.passthrough, [], ty, [.str v]⟩⟩] from rfl]
      rw [runReplacements_cons_occurs _ _ _ _ (occurs_self v hv)]
      rw [show applyStrategy a0 (Replacement.mk v ⟨.passthrough, [], ty, [.str v]⟩).value
            (Replacement.mk v ⟨.passthrough, [], ty, [.str v]⟩).rule
          = (v, a0) from by rw [applyStrategy]]
      rw [replaceAll_self v v hv, runReplacements]
    have hmaps : GetMappings a0 = .obj [] := rfl
    refine ⟨by rw [hmask], by rw [hmask]; exact hmaps, ?_⟩
    rw [hmask]
    dsimp only
    rw [hmaps]
    rfl

/-- Witness for C1_amended at `ty = "REGION"`, `v = "华东"`. -/
theorem C1_amended_witness :
    ("华东".toList : Str) ≠ [] ∧
    ((Anonymize (NewAnonymizer [⟨.passthrough, [], "REGION".toList,
        [.str "华东".toList]⟩] fun _ => 0) (.str "华东".toList)).1
      = .str "华东".toList) :=
  ⟨by decide,
    (C1_amended "REGION".toList "华东".toList (fun _ => 0) (by decide)).2.1⟩

end Anon
